import Mathlib

/-!
Verification of the multi-page extraction pipeline and consistency
reconciliation engine of the Smart Document Digitizer.

The definitions below are a shallow embedding of `src/App.tsx`
(`checkConsistency`, `processPage`, `processAll`, `handleResetPage`) and of
the `Page` record from `src/types.ts`.  JavaScript objects holding extracted
rows are modelled as association lists (`Row`); JS `Map`s as association
lists over `Nat`; the asynchronous extraction service is modelled as an
outcome value (`Except String (List Row)`) handed to the state transitions.
-/

namespace Digitizer

/-- Scalar cell value of an extracted row (`string | number | boolean | null`). -/
inductive Value where
  | str (s : String)
  | num (n : Int)
  | boolean (b : Bool)
  | null
deriving DecidableEq

/-- A row of extracted data: a JS object, i.e. an ordered association list
from column name to scalar value. -/
abbrev Row := List (String × Value)

/-- `ProcessingStatus` from `src/types.ts`. -/
inductive Status where
  | idle
  | uploading
  | processing
  | extracting
  | complete
  | error
deriving DecidableEq

/-- The `Page` record from `src/types.ts` (plus the `consistencyWarning`
field written by `checkConsistency` in `src/App.tsx`).  Image payloads are
base64 strings; `processedImage` is nullable. -/
structure Page where
  id : String
  name : String
  originalImage : String
  processedImage : Option String
  extractedData : Option (List Row)
  status : Status
  errorMessage : Option String
  consistencyWarning : Option String
deriving DecidableEq

/-- Placeholder record used only as a `getD` default in statements. -/
def dummyPage : Page :=
  { id := "", name := "", originalImage := "", processedImage := none,
    extractedData := none, status := Status.idle, errorMessage := none,
    consistencyWarning := none }

/-- `k in row` on a JS object. -/
def hasKey (r : Row) (k : String) : Bool :=
  r.any (fun kv => kv.1 == k)

/-- Insertion into a JS `Set<string>` (insertion-ordered, deduplicating). -/
def insertHeader (acc : List String) (k : String) : List String :=
  if acc.contains k then acc else acc ++ [k]

/-- `Object.keys(row).forEach(k => allHeaders.add(k))`. -/
def rowHeadersInto (acc : List String) (r : Row) : List String :=
  (r.map Prod.fst).foldl insertHeader acc

/-- `p.extractedData?.forEach(row => ...)` over one page. -/
def pageHeadersInto (acc : List String) (p : Page) : List String :=
  (p.extractedData.getD []).foldl rowHeadersInto acc

/-- Collection of the header superset (`allHeaders`) in `checkConsistency`,
in first-seen order over pages, rows, keys. -/
def collectHeaders (completedPages : List Page) : List String :=
  completedPages.foldl pageHeadersInto []

/-- `if (!(h in newRow)) newRow[h] = ""` — JS adds a fresh key at the end. -/
def addMissing (r : Row) (h : String) : Row :=
  if hasKey r h then r else r ++ [(h, Value.str "")]

/-- `headerArray.forEach(h => { if (!(h in newRow)) newRow[h] = "" })`
applied to a copy of the row. -/
def normalizeRow (headerArray : List String) (r : Row) : Row :=
  headerArray.foldl addMissing r

/-- `countsMap.get(c) || 0` on the JS `Map<number, number>` (association
list lookup; keys are unique). -/
def getCount : List (Nat × Nat) → Nat → Nat
  | [], _ => 0
  | e :: rest, c => if e.1 == c then e.2 else getCount rest c

/-- `countsMap.set(c, freq)` (replace in place, or append a fresh key). -/
def setCount : List (Nat × Nat) → Nat → Nat → List (Nat × Nat)
  | [], c, v => [(c, v)]
  | e :: rest, c, v => if e.1 == c then (c, v) :: rest else e :: setCount rest c v

/-- One iteration of the `rowCounts.forEach` loop computing the mode:
state is `(countsMap, maxFreq, modeCount)`; the JS body computes
`freq = (countsMap.get(c) || 0) + 1`, stores it, and takes `c` as the new
mode exactly when `freq > maxFreq`. -/
def modeStep (st : List (Nat × Nat) × Nat × Nat) (c : Nat) :
    List (Nat × Nat) × Nat × Nat :=
  if st.2.1 < getCount st.1 c + 1 then
    (setCount st.1 c (getCount st.1 c + 1), getCount st.1 c + 1, c)
  else
    (setCount st.1 c (getCount st.1 c + 1), st.2.1, st.2.2)

/-- The mode-row-count scan of `checkConsistency`: `maxFreq` starts at 0,
`modeCount` starts at `rowCounts[0]`. -/
def modeOf (rowCounts : List Nat) : Nat :=
  (rowCounts.foldl modeStep ([], 0, rowCounts.headD 0)).2.2

/-- `p.status === 'complete' && p.extractedData` (a JS array is truthy). -/
def isEligible (p : Page) : Bool :=
  p.status == Status.complete && p.extractedData.isSome

/-- `p.extractedData?.length || 0`. -/
def rowCountOf (p : Page) : Nat :=
  (p.extractedData.getD []).length

/-- Row counts of the eligible pages, in page order. -/
def eligibleRowCounts (currentPages : List Page) : List Nat :=
  (currentPages.filter isEligible).map rowCountOf

/-- The row-count-mismatch warning template literal. -/
def warningMsg (found expected : Nat) : String :=
  "Row count mismatch: Found " ++ toString found ++ ", expected " ++
    toString expected ++ " based on similar pages."

/-- Body of the `currentPages.map` at the end of `checkConsistency`:
normalize the rows of a complete page against the header superset and
attach the row-count warning. -/
def reconcilePage (headerArray : List String) (modeCount : Nat) (p : Page) :
    Page :=
  match p.extractedData with
  | none => p
  | some rows =>
    if p.status == Status.complete then
      let normalizedData := rows.map (normalizeRow headerArray)
      let warning :=
        if normalizedData.length == modeCount then none
        else some (warningMsg normalizedData.length modeCount)
      { p with extractedData := some normalizedData,
               consistencyWarning := warning }
    else p

/-- `checkConsistency` from `src/App.tsx`. -/
def checkConsistency (currentPages : List Page) : List Page :=
  let completedPages := currentPages.filter isEligible
  if completedPages.length < 2 then currentPages
  else
    let headerArray := collectHeaders completedPages
    let modeCount := modeOf (completedPages.map rowCountOf)
    currentPages.map (reconcilePage headerArray modeCount)

/-- First `setState` of `processPage`: move the targeted page to
`extracting` and drop its `consistencyWarning`. -/
def startExtract (pages : List Page) (pid : String) : List Page :=
  pages.map fun p =>
    if p.id == pid then
      { p with status := Status.extracting, consistencyWarning := none }
    else p

/-- `setState` on extraction success: store the rows, mark `complete`. -/
def resolveSuccess (pages : List Page) (pid : String) (data : List Row) :
    List Page :=
  pages.map fun p =>
    if p.id == pid then
      { p with extractedData := some data, status := Status.complete }
    else p

/-- `setState` on extraction failure: mark `error`, store the message. -/
def resolveFailure (pages : List Page) (pid : String) (msg : String) :
    List Page :=
  pages.map fun p =>
    if p.id == pid then
      { p with status := Status.error, errorMessage := some msg }
    else p

/-- `handleResetPage`: back to `idle`, dropping data and warning. -/
def resetPage (pages : List Page) (pid : String) : List Page :=
  pages.map fun p =>
    if p.id == pid then
      { p with extractedData := none, status := Status.idle,
               consistencyWarning := none }
    else p

/-- `page.processedImage || page.originalImage` (empty string is falsy). -/
def imageToProcess (p : Page) : String :=
  match p.processedImage with
  | some s => if s == "" then p.originalImage else s
  | none => p.originalImage

/-- The synchronous prefix of `processPage`: the payload guard followed by
the transition to `extracting`. -/
def extractStart (pages : List Page) (page : Page) : List Page :=
  if imageToProcess page == "" then pages
  else startExtract pages page.id

/-- `processPage` with the service call's outcome made explicit: the guard,
the synchronous start transition, then the resolution commit. -/
def processPage (pages : List Page) (page : Page)
    (outcome : Except String (List Row)) : List Page :=
  if imageToProcess page == "" then pages
  else
    match outcome with
    | Except.ok data => resolveSuccess (startExtract pages page.id) page.id data
    | Except.error msg => resolveFailure (startExtract pages page.id) page.id msg

/-- `p.status === 'idle' || p.status === 'error'` — the batch filter. -/
def selectedForBatch (p : Page) : Bool :=
  p.status == Status.idle || p.status == Status.error

/-- The settled state after `Promise.all(idlePages.map(processPage))`:
every selected page's extraction has started and resolved (`oc` gives each
page's outcome, keyed by id). -/
def settleBatch (pages : List Page) (oc : String → Except String (List Row)) :
    List Page :=
  (pages.filter selectedForBatch).foldl
    (fun acc p => processPage acc p (oc p.id)) pages

/-- `processAll`: select idle/error pages, early-return if none, otherwise
settle the whole batch and then reconcile in one state update. -/
def processAll (pages : List Page) (oc : String → Except String (List Row)) :
    List Page :=
  if (pages.filter selectedForBatch).length == 0 then pages
  else checkConsistency (settleBatch pages oc)

/-- Net effect of one started-and-resolved extraction on the page itself. -/
def extractOne (p : Page) (oc : Except String (List Row)) : Page :=
  if imageToProcess p == "" then p
  else
    match oc with
    | Except.ok data =>
      { p with status := Status.complete, consistencyWarning := none,
               extractedData := some data }
    | Except.error msg =>
      { p with status := Status.error, consistencyWarning := none,
               errorMessage := some msg }

/-- Spec §3 invariant: `errorMessage` is non-null iff `status == error`. -/
def errInvariant (pages : List Page) : Prop :=
  ∀ p ∈ pages, p.errorMessage.isSome = true ↔ p.status = Status.error

/-- The direction of the `errorMessage` invariant the code maintains. -/
def errInvariantFwd (pages : List Page) : Prop :=
  ∀ p ∈ pages, p.status = Status.error → p.errorMessage.isSome = true

/-- Spec §3 invariant: `extractedData` is non-null iff `status == complete`. -/
def dataInvariant (pages : List Page) : Prop :=
  ∀ p ∈ pages, p.extractedData.isSome = true ↔ p.status = Status.complete

/-- The direction of the `extractedData` invariant the code maintains. -/
def dataInvariantFwd (pages : List Page) : Prop :=
  ∀ p ∈ pages, p.status = Status.complete → p.extractedData.isSome = true

/-- Running count: occurrences of the element at position `j` within the
prefix of length `j+1` — "how often has `l[j]` been seen up to and
including position `j`". -/
def runCount (l : List Nat) (j : Nat) : Nat :=
  (l.take (j + 1)).count (l.getD j 0)

/-! ### Concrete records used in witnesses and counterexamples -/

/-- An idle page with a payload and no data. -/
def pgIdle : Page :=
  { id := "p1", name := "doc1", originalImage := "img1", processedImage := none,
    extractedData := none, status := Status.idle, errorMessage := none,
    consistencyWarning := none }

/-- A failed page carrying an error message and a stale warning. -/
def pgErr : Page :=
  { id := "p2", name := "doc2", originalImage := "img2", processedImage := none,
    extractedData := none, status := Status.error, errorMessage := some "boom",
    consistencyWarning := some "warn" }

/-- A completed page holding one extracted row. -/
def pgDone : Page :=
  { id := "p3", name := "doc3", originalImage := "img3", processedImage := none,
    extractedData := some [[("a", Value.str "1")]], status := Status.complete,
    errorMessage := none, consistencyWarning := none }

/-! ### Generic helper lemmas -/

theorem map_id_of_mem {α : Type} {l : List α} {f : α → α}
    (h : ∀ a ∈ l, f a = a) : l.map f = l :=
  (List.map_congr_left h).trans (List.map_id' l)

theorem getD_map_eq {α β : Type} (l : List α) (f : α → β) (i : Nat)
    (hi : i < l.length) (d : β) (e : α) :
    (l.map f).getD i d = f (l.getD i e) := by
  rw [List.getD_eq_getElem _ _ (by simpa using hi), List.getD_eq_getElem _ _ hi,
    List.getElem_map]

/-! ### C8: reconciliation is a no-op below two eligible pages -/

theorem checkConsistency_few (currentPages : List Page)
    (h : (currentPages.filter isEligible).length < 2) :
    checkConsistency currentPages = currentPages := by
  simp [checkConsistency, h]

/-- C8: for every page sequence with fewer than two eligible pages
(status `complete` with non-null `extractedData`), `checkConsistency`
returns the sequence unchanged — every field of every page is intact. -/
theorem checkConsistency_noop_of_few (currentPages : List Page)
    (h : (currentPages.filter isEligible).length < 2) :
    checkConsistency currentPages = currentPages :=
  checkConsistency_few currentPages h

theorem checkConsistency_noop_of_few_witness :
    (([pgDone] : List Page).filter isEligible).length < 2 ∧
    checkConsistency [pgDone] = [pgDone] :=
  ⟨by decide, checkConsistency_noop_of_few [pgDone] (by decide)⟩

/-! ### C9: a resolution for a deleted page is a no-op -/

/-- C9: if no remaining page has the id of an in-flight extraction, both the
success and the failure resolution writes leave the page sequence exactly
unchanged — the deleted record is neither re-added nor is any survivor
mutated. -/
theorem resolution_after_delete_noop (pages : List Page) (pid : String)
    (data : List Row) (msg : String) (h : ∀ p ∈ pages, p.id ≠ pid) :
    resolveSuccess pages pid data = pages ∧
    resolveFailure pages pid msg = pages := by
  constructor
  · unfold resolveSuccess
    exact map_id_of_mem fun p hp => by simp [h p hp]
  · unfold resolveFailure
    exact map_id_of_mem fun p hp => by simp [h p hp]

theorem resolution_after_delete_noop_witness :
    (∀ p ∈ ([pgDone, pgIdle] : List Page), p.id ≠ "gone") ∧
    resolveSuccess [pgDone, pgIdle] "gone" [] = [pgDone, pgIdle] ∧
    resolveFailure [pgDone, pgIdle] "gone" "late failure" = [pgDone, pgIdle] :=
  ⟨by decide,
   (resolution_after_delete_noop [pgDone, pgIdle] "gone" [] "late failure"
      (by decide)).1,
   (resolution_after_delete_noop [pgDone, pgIdle] "gone" [] "late failure"
      (by decide)).2⟩

/-! ### C6: failure is recorded on exactly the failing page -/

/-- C6: the failure resolution keeps the sequence length, rewrites exactly
the records whose id matches the failing page — setting `status = error`
and the human-readable message while leaving `extractedData` (and every
other field) untouched — and leaves every other record exactly unchanged. -/
theorem resolveFailure_spec (pages : List Page) (pid : String) (msg : String) :
    (resolveFailure pages pid msg).length = pages.length ∧
    ∀ i, i < pages.length →
      (((pages.getD i dummyPage).id = pid →
          (resolveFailure pages pid msg).getD i dummyPage =
            { pages.getD i dummyPage with
              status := Status.error,
              errorMessage := some msg }) ∧
        ((resolveFailure pages pid msg).getD i dummyPage).extractedData =
          (pages.getD i dummyPage).extractedData ∧
        ((pages.getD i dummyPage).id ≠ pid →
          (resolveFailure pages pid msg).getD i dummyPage =
            pages.getD i dummyPage)) := by
  unfold resolveFailure
  refine ⟨List.length_map _ _, fun i hi => ?_⟩
  rw [getD_map_eq pages _ i hi dummyPage dummyPage]
  generalize pages.getD i dummyPage = p
  by_cases hc : p.id = pid
  · simp [hc]
  · simp [hc]

theorem resolveFailure_spec_witness :
    (0 : Nat) < ([pgDone] : List Page).length ∧
    (pgDone.id = "p3" →
      (resolveFailure [pgDone] "p3" "oops").getD 0 dummyPage =
        { pgDone with
          status := Status.error,
          errorMessage := some "oops" }) ∧
    ((resolveFailure [pgDone] "p3" "oops").getD 0 dummyPage).extractedData =
      pgDone.extractedData ∧
    (pgDone.id ≠ "p3" →
      (resolveFailure [pgDone] "p3" "oops").getD 0 dummyPage = pgDone) :=
  ⟨by decide, (resolveFailure_spec [pgDone] "p3" "oops").2 0 (by decide)⟩

/-! ### C3: what the synchronous start transition actually clears -/

/-- C3 counterexample: invoking extraction on an errored page with a
non-null payload moves it to `extracting` and clears `consistencyWarning`,
but its prior `errorMessage` survives — the claim that the start
transition clears both is false on this input. -/
theorem extractStart_retains_errorMessage_cex :
    ((extractStart [pgErr] pgErr).getD 0 dummyPage).status =
      Status.extracting ∧
    ((extractStart [pgErr] pgErr).getD 0 dummyPage).consistencyWarning =
      none ∧
    ((extractStart [pgErr] pgErr).getD 0 dummyPage).errorMessage =
      some "boom" ∧
    ¬ ((extractStart [pgErr] pgErr).getD 0 dummyPage).errorMessage = none := by
  unfold extractStart startExtract pgErr
  decide

/-- C3 amended: for every page on which extract is invoked with a non-null
image payload, the synchronous transition sets every matching record to
`extracting` and clears its `consistencyWarning`, leaving `errorMessage`
(and every other field) unchanged; non-matching records are untouched. -/
theorem extractStart_spec (pages : List Page) (page : Page)
    (h : imageToProcess page ≠ "") :
    (extractStart pages page).length = pages.length ∧
    ∀ i, i < pages.length →
      (((pages.getD i dummyPage).id = page.id →
          (extractStart pages page).getD i dummyPage =
            { pages.getD i dummyPage with
              status := Status.extracting,
              consistencyWarning := none }) ∧
        ((extractStart pages page).getD i dummyPage).errorMessage =
          (pages.getD i dummyPage).errorMessage ∧
        ((pages.getD i dummyPage).id ≠ page.id →
          (extractStart pages page).getD i dummyPage =
            pages.getD i dummyPage)) := by
  unfold extractStart startExtract
  rw [if_neg (by simpa using h)]
  refine ⟨List.length_map _ _, fun i hi => ?_⟩
  rw [getD_map_eq pages _ i hi dummyPage dummyPage]
  generalize pages.getD i dummyPage = p
  by_cases hc : p.id = page.id
  · simp [hc]
  · simp [hc]

theorem extractStart_spec_witness :
    imageToProcess pgErr ≠ "" ∧
    (0 : Nat) < ([pgErr] : List Page).length ∧
    (pgErr.id = pgErr.id →
      (extractStart [pgErr] pgErr).getD 0 dummyPage =
        { pgErr with
          status := Status.extracting,
          consistencyWarning := none }) ∧
    ((extractStart [pgErr] pgErr).getD 0 dummyPage).errorMessage =
      pgErr.errorMessage ∧
    (pgErr.id ≠ pgErr.id →
      (extractStart [pgErr] pgErr).getD 0 dummyPage = pgErr) :=
  ⟨by decide, by decide,
   (extractStart_spec [pgErr] pgErr (by decide)).2 0 (by decide)⟩

/-! ### C4: the errorMessage/status invariant -/

/-- C4 counterexample: the `errorMessage` iff-invariant holds of a single
errored page, but resetting that page moves it to `idle` without clearing
`errorMessage`, so the invariant is not preserved by the reset
transition. -/
theorem errInvariant_not_preserved_cex :
    errInvariant [pgErr] ∧ ¬ errInvariant (resetPage [pgErr] "p2") := by
  unfold errInvariant resetPage pgErr
  decide

/-- C4 amended: the forward direction — `status == error` implies a
non-null `errorMessage` — is an invariant of all four transitions
(extract start, success, failure, reset); the converse direction fails
because no transition ever clears `errorMessage`. -/
theorem errInvariantFwd_preserved (pages : List Page) (pid : String)
    (data : List Row) (msg : String) (h : errInvariantFwd pages) :
    errInvariantFwd (startExtract pages pid) ∧
    errInvariantFwd (resolveSuccess pages pid data) ∧
    errInvariantFwd (resolveFailure pages pid msg) ∧
    errInvariantFwd (resetPage pages pid) := by
  refine ⟨fun q hq => ?_, fun q hq => ?_, fun q hq => ?_, fun q hq => ?_⟩ <;>
  · simp only [startExtract, resolveSuccess, resolveFailure, resetPage,
      List.mem_map] at hq
    obtain ⟨p, hp, rfl⟩ := hq
    by_cases hc : p.id = pid
    · simp [hc]
    · simpa [hc] using h p hp

theorem errInvariantFwd_preserved_witness :
    errInvariantFwd [pgErr] ∧
    (errInvariantFwd (startExtract [pgErr] "p2") ∧
      errInvariantFwd (resolveSuccess [pgErr] "p2" []) ∧
      errInvariantFwd (resolveFailure [pgErr] "p2" "again") ∧
      errInvariantFwd (resetPage [pgErr] "p2")) :=
  ⟨by unfold errInvariantFwd; decide,
   errInvariantFwd_preserved [pgErr] "p2" [] "again"
     (by unfold errInvariantFwd; decide)⟩

/-! ### C5: the extractedData/status invariant -/

/-- C5 counterexample: the `extractedData` iff-invariant holds of a single
completed page, but a failure resolution landing on it moves it to `error`
while leaving its prior `extractedData` in place, so the invariant is not
preserved by the failure transition. -/
theorem dataInvariant_not_preserved_cex :
    dataInvariant [pgDone] ∧
    ¬ dataInvariant (resolveFailure [pgDone] "p3" "boom") := by
  unfold dataInvariant resolveFailure pgDone
  decide

/-- C5 amended: the forward direction — `status == complete` implies a
non-null `extractedData` — is an invariant of all four transitions; the
converse direction fails because a failure (and the start transition)
leaves prior extracted rows untouched. -/
theorem dataInvariantFwd_preserved (pages : List Page) (pid : String)
    (data : List Row) (msg : String) (h : dataInvariantFwd pages) :
    dataInvariantFwd (startExtract pages pid) ∧
    dataInvariantFwd (resolveSuccess pages pid data) ∧
    dataInvariantFwd (resolveFailure pages pid msg) ∧
    dataInvariantFwd (resetPage pages pid) := by
  refine ⟨fun q hq => ?_, fun q hq => ?_, fun q hq => ?_, fun q hq => ?_⟩ <;>
  · simp only [startExtract, resolveSuccess, resolveFailure, resetPage,
      List.mem_map] at hq
    obtain ⟨p, hp, rfl⟩ := hq
    by_cases hc : p.id = pid
    · simp [hc]
    · simpa [hc] using h p hp

theorem dataInvariantFwd_preserved_witness :
    dataInvariantFwd [pgDone] ∧
    (dataInvariantFwd (startExtract [pgDone] "p3") ∧
      dataInvariantFwd (resolveSuccess [pgDone] "p3" []) ∧
      dataInvariantFwd (resolveFailure [pgDone] "p3" "boom") ∧
      dataInvariantFwd (resetPage [pgDone] "p3")) :=
  ⟨by unfold dataInvariantFwd; decide,
   dataInvariantFwd_preserved [pgDone] "p3" [] "boom"
     (by unfold dataInvariantFwd; decide)⟩

/-! ### C1: the mode row count is the first value to reach the maximum
frequency -/

theorem getCount_setCount_same (m : List (Nat × Nat)) (c v : Nat) :
    getCount (setCount m c v) c = v := by
  induction m with
  | nil => simp [setCount, getCount]
  | cons e rest ih =>
    by_cases hc : e.1 = c <;> simp [setCount, getCount, hc, ih]

theorem getCount_setCount_ne (m : List (Nat × Nat)) (c c' v : Nat)
    (h : c' ≠ c) : getCount (setCount m c v) c' = getCount m c' := by
  induction m with
  | nil => simp [setCount, getCount, Ne.symm h]
  | cons e rest ih =>
    by_cases hc : e.1 = c
    · simp [setCount, getCount, hc, Ne.symm h]
    · simp [setCount, getCount, hc, ih]

theorem runCount_append_lt (pre : List Nat) (c : Nat) (j : Nat)
    (hj : j < pre.length) : runCount (pre ++ [c]) j = runCount pre j := by
  unfold runCount
  rw [List.take_append_of_le_length (by omega), List.getD_append _ _ _ _ hj]

theorem runCount_append_last (pre : List Nat) (c : Nat) :
    runCount (pre ++ [c]) pre.length = (pre ++ [c]).count c := by
  unfold runCount
  rw [List.take_of_length_le (by simp), List.getD_append_right _ _ _ _ (le_refl _)]
  simp

theorem count_take_le (l : List Nat) (v n : Nat) :
    (l.take n).count v ≤ l.count v := by
  conv_rhs => rw [← List.take_append_drop n l]
  rw [List.count_append]
  omega

/-- Every member of a list realizes its total count as a running count at
some position (its last occurrence). -/
theorem count_eq_runCount_of_mem (l : List Nat) (v : Nat) (hv : v ∈ l) :
    ∃ i, i < l.length ∧ l.getD i 0 = v ∧ runCount l i = l.count v := by
  induction l using List.reverseRecOn with
  | nil => simp at hv
  | append_singleton xs c ih =>
    by_cases hc : v = c
    · subst hc
      refine ⟨xs.length, by simp, ?_, runCount_append_last xs v⟩
      rw [List.getD_append_right _ _ _ _ (le_refl _)]
      simp
    · have hx : v ∈ xs := by
        rcases List.mem_append.1 hv with hmem | hmem
        · exact hmem
        · simp at hmem; exact absurd hmem hc
      obtain ⟨i, hi, hget, hrun⟩ := ih hx
      refine ⟨i, by simp; omega, ?_, ?_⟩
      · rw [List.getD_append _ _ _ _ hi]; exact hget
      · rw [runCount_append_lt _ _ _ hi, hrun, List.count_append]
        simp [List.count_singleton', hc]

/-- Invariant of the mode-scan fold: after processing the prefix `pre`
(with `d` the initial `modeCount`), the map holds the exact occurrence
counts, `maxFreq` bounds (and is realized by) every running count, and
`modeCount` sits at the first position whose running count reaches
`maxFreq`. -/
def ModeInv (d : Nat) (pre : List Nat)
    (st : List (Nat × Nat) × Nat × Nat) : Prop :=
  (∀ c, getCount st.1 c = pre.count c) ∧
  (∀ j, j < pre.length → runCount pre j ≤ st.2.1) ∧
  (pre = [] → st.2.1 = 0 ∧ st.2.2 = d) ∧
  (pre ≠ [] → ∃ j, j < pre.length ∧ pre.getD j 0 = st.2.2 ∧
    runCount pre j = st.2.1 ∧ ∀ i, i < j → runCount pre i < st.2.1)

theorem modeInv_step (d : Nat) (pre : List Nat)
    (st : List (Nat × Nat) × Nat × Nat) (c : Nat) (h : ModeInv d pre st) :
    ModeInv d (pre ++ [c]) (modeStep st c) := by
  obtain ⟨m, F, mode⟩ := st
  obtain ⟨h1, h2, h3, h4⟩ := h
  dsimp only at h1 h2 h3 h4
  have hcnt : getCount m c = pre.count c := h1 c
  have hfreq : (pre ++ [c]).count c = pre.count c + 1 := by
    rw [List.count_append]; simp
  have hmap : ∀ x, getCount (setCount m c (getCount m c + 1)) x =
      (pre ++ [c]).count x := by
    intro x
    by_cases hx : x = c
    · subst hx; rw [getCount_setCount_same, hcnt, hfreq]
    · rw [getCount_setCount_ne _ _ _ _ hx, h1 x, List.count_append,
        List.count_singleton', if_neg (Ne.symm hx)]
      omega
  unfold modeStep
  by_cases hlt : F < getCount m c + 1
  · rw [if_pos hlt]
    refine ⟨hmap, ?_, by simp, fun _ => ?_⟩ <;> dsimp only
    · intro j hj
      simp only [List.length_append, List.length_cons, List.length_nil] at hj
      rcases Nat.lt_or_ge j pre.length with hj' | hj'
      · rw [runCount_append_lt _ _ _ hj']
        exact le_trans (h2 j hj') (Nat.le_of_lt hlt)
      · have hj'' : j = pre.length := by omega
        subst hj''
        rw [runCount_append_last, hfreq, hcnt]
    · refine ⟨pre.length, by simp, ?_, ?_, ?_⟩
      · rw [List.getD_append_right _ _ _ _ (le_refl _)]; simp
      · rw [runCount_append_last, hfreq, hcnt]
      · intro i hi
        rw [runCount_append_lt _ _ _ hi]
        exact lt_of_le_of_lt (h2 i hi) hlt
  · rw [if_neg hlt]
    have hpre : pre ≠ [] := by
      intro hp
      obtain ⟨hF, -⟩ := h3 hp
      subst hp
      have hc0 : getCount m c = 0 := by rw [hcnt]; simp
      omega
    obtain ⟨j, hj, hget, hrun, hfirst⟩ := h4 hpre
    refine ⟨hmap, ?_, by simp, fun _ => ?_⟩ <;> dsimp only
    · intro i hi
      simp only [List.length_append, List.length_cons, List.length_nil] at hi
      rcases Nat.lt_or_ge i pre.length with hi' | hi'
      · rw [runCount_append_lt _ _ _ hi']
        exact h2 i hi'
      · have hi'' : i = pre.length := by omega
        subst hi''
        rw [runCount_append_last, hfreq, ← hcnt]
        omega
    · refine ⟨j, by simp; omega, ?_, ?_, ?_⟩
      · rw [List.getD_append _ _ _ _ hj]; exact hget
      · rw [runCount_append_lt _ _ _ hj]; exact hrun
      · intro i hi
        rw [runCount_append_lt _ _ _ (lt_trans hi hj)]
        exact hfirst i hi

theorem modeInv_foldl (d : Nat) (suffix : List Nat) :
    ∀ (pre : List Nat) (st : List (Nat × Nat) × Nat × Nat),
      ModeInv d pre st →
      ModeInv d (pre ++ suffix) (suffix.foldl modeStep st) := by
  induction suffix with
  | nil => intro pre st h; simpa using h
  | cons c rest ih =>
    intro pre st h
    have h' := ih (pre ++ [c]) (modeStep st c) (modeInv_step d pre st c h)
    simpa using h'

theorem modeInv_init (d : Nat) : ModeInv d [] ([], 0, d) :=
  ⟨fun c => by simp [getCount], fun j hj => by simp at hj,
   fun _ => ⟨rfl, rfl⟩, fun h => absurd rfl h⟩

/-- The mode scan returns a value of maximal frequency, and it is the
value at the first position whose running count reaches that maximal
frequency — the stable first-max tie-break. -/
theorem modeOf_spec (l : List Nat) (hl : l ≠ []) :
    (∀ v ∈ l, l.count v ≤ l.count (modeOf l)) ∧
    ∃ j, j < l.length ∧ l.getD j 0 = modeOf l ∧
      runCount l j = l.count (modeOf l) ∧
      ∀ i, i < j → runCount l i < l.count (modeOf l) := by
  have H := modeInv_foldl (l.headD 0) l [] ([], 0, l.headD 0)
    (modeInv_init (l.headD 0))
  rw [List.nil_append] at H
  obtain ⟨h1, h2, h3, h4⟩ := H
  obtain ⟨j, hj, hget, hrun, hfirst⟩ := h4 hl
  have hmem : (l.foldl modeStep ([], 0, l.headD 0)).2.2 ∈ l := by
    rw [← hget, List.getD_eq_getElem _ _ hj]
    exact List.getElem_mem hj
  have hge : (l.foldl modeStep ([], 0, l.headD 0)).2.1 ≤
      l.count (modeOf l) := by
    rw [← hrun]
    unfold runCount
    rw [hget]
    exact count_take_le l (modeOf l) (j + 1)
  have hle : l.count (modeOf l) ≤ (l.foldl modeStep ([], 0, l.headD 0)).2.1 := by
    obtain ⟨i, hi, hgi, hri⟩ := count_eq_runCount_of_mem l (modeOf l) hmem
    rw [← hri]
    exact h2 i hi
  have hcF : l.count (modeOf l) = (l.foldl modeStep ([], 0, l.headD 0)).2.1 :=
    le_antisymm hle hge
  constructor
  · intro v hv
    obtain ⟨i, hi, hgi, hri⟩ := count_eq_runCount_of_mem l v hv
    rw [hcF, ← hri]
    exact h2 i hi
  · exact ⟨j, hj, hget, by rw [hcF]; exact hrun,
      fun i hij => by rw [hcF]; exact hfirst i hij⟩

/-- With at least two eligible pages the reconciler takes its rewrite
branch: every page is mapped through `reconcilePage` with the collected
header superset and the computed mode row count. -/
theorem checkConsistency_eq_map (currentPages : List Page)
    (h : 2 ≤ (currentPages.filter isEligible).length) :
    checkConsistency currentPages =
      currentPages.map
        (reconcilePage (collectHeaders (currentPages.filter isEligible))
          (modeOf (eligibleRowCounts currentPages))) := by
  unfold checkConsistency eligibleRowCounts
  rw [if_neg (by omega)]

/-- C1: for every page sequence with at least two eligible pages, the
`modeCount` used by `checkConsistency` is computed from the eligible row
counts in page order; it has the highest frequency among them, and it is
the row count at the first position whose running count reaches that
maximal frequency (first-to-reach-the-max tie-break). -/
theorem checkConsistency_mode_first_max (currentPages : List Page)
    (h : 2 ≤ (currentPages.filter isEligible).length) :
    checkConsistency currentPages =
      currentPages.map
        (reconcilePage (collectHeaders (currentPages.filter isEligible))
          (modeOf (eligibleRowCounts currentPages))) ∧
    (∀ v ∈ eligibleRowCounts currentPages,
        (eligibleRowCounts currentPages).count v ≤
          (eligibleRowCounts currentPages).count
            (modeOf (eligibleRowCounts currentPages))) ∧
    ∃ j, j < (eligibleRowCounts currentPages).length ∧
      (eligibleRowCounts currentPages).getD j 0 =
        modeOf (eligibleRowCounts currentPages) ∧
      runCount (eligibleRowCounts currentPages) j =
        (eligibleRowCounts currentPages).count
          (modeOf (eligibleRowCounts currentPages)) ∧
      ∀ i, i < j →
        runCount (eligibleRowCounts currentPages) i <
          (eligibleRowCounts currentPages).count
            (modeOf (eligibleRowCounts currentPages)) := by
  refine ⟨checkConsistency_eq_map currentPages h, ?_⟩
  · apply modeOf_spec
    intro hemp
    have hlen : (eligibleRowCounts currentPages).length =
        (currentPages.filter isEligible).length := List.length_map _ _
    rw [hemp] at hlen
    simp at hlen
    omega

/-- The tie-break scenario: four eligible pages extracting 2, 3, 2 and 3
rows, in that order. -/
def tiePages : List Page :=
  [{ dummyPage with
      id := "t1", status := Status.complete, extractedData := some [[], []] },
   { dummyPage with
      id := "t2", status := Status.complete,
      extractedData := some [[], [], []] },
   { dummyPage with
      id := "t3", status := Status.complete, extractedData := some [[], []] },
   { dummyPage with
      id := "t4", status := Status.complete,
      extractedData := some [[], [], []] }]

theorem checkConsistency_mode_first_max_witness :
    2 ≤ (tiePages.filter isEligible).length ∧
    (checkConsistency tiePages =
      tiePages.map
        (reconcilePage (collectHeaders (tiePages.filter isEligible))
          (modeOf (eligibleRowCounts tiePages))) ∧
     (∀ v ∈ eligibleRowCounts tiePages,
        (eligibleRowCounts tiePages).count v ≤
          (eligibleRowCounts tiePages).count
            (modeOf (eligibleRowCounts tiePages))) ∧
     ∃ j, j < (eligibleRowCounts tiePages).length ∧
      (eligibleRowCounts tiePages).getD j 0 =
        modeOf (eligibleRowCounts tiePages) ∧
      runCount (eligibleRowCounts tiePages) j =
        (eligibleRowCounts tiePages).count
          (modeOf (eligibleRowCounts tiePages)) ∧
      ∀ i, i < j →
        runCount (eligibleRowCounts tiePages) i <
          (eligibleRowCounts tiePages).count
            (modeOf (eligibleRowCounts tiePages))) ∧
    eligibleRowCounts tiePages = [2, 3, 2, 3] ∧
    modeOf (eligibleRowCounts tiePages) = 2 :=
  ⟨by decide, checkConsistency_mode_first_max tiePages (by decide),
   by decide, by decide⟩

/-! ### C2: schema normalization -/

/-- A column name occurs somewhere among the eligible pages' rows. -/
def headerOccurs (pages : List Page) (k : String) : Bool :=
  (pages.filter isEligible).any fun p =>
    (p.extractedData.getD []).any fun r => hasKey r k

theorem hasKey_append (r e : Row) (k : String) :
    hasKey (r ++ e) k = (hasKey r k || hasKey e k) := by
  simp [hasKey]

theorem addMissing_of_hasKey {r : Row} {h : String} (hk : hasKey r h = true) :
    addMissing r h = r := by
  simp [addMissing, hk]

theorem addMissing_of_not_hasKey {r : Row} {h : String}
    (hk : hasKey r h = false) :
    addMissing r h = r ++ [(h, Value.str "")] := by
  simp [addMissing, hk]

theorem hasKey_addMissing_mono {r : Row} {k h : String}
    (hk : hasKey r k = true) : hasKey (addMissing r h) k = true := by
  unfold addMissing
  by_cases hh : hasKey r h
  · simp [hh, hk]
  · simp [hh, hasKey_append, hk]

theorem hasKey_addMissing_self (r : Row) (h : String) :
    hasKey (addMissing r h) h = true := by
  by_cases hh : hasKey r h
  · rw [addMissing_of_hasKey hh]; exact hh
  · rw [addMissing_of_not_hasKey (by simpa using hh), hasKey_append]
    simp [hasKey]

theorem hasKey_foldl_addMissing_mono (hs : List String) :
    ∀ (r : Row) (k : String), hasKey r k = true →
      hasKey (hs.foldl addMissing r) k = true := by
  induction hs with
  | nil => intro r k hk; simpa using hk
  | cons h rest ih =>
    intro r k hk
    rw [List.foldl_cons]
    exact ih _ _ (hasKey_addMissing_mono hk)

/-- After normalization a row has every header of the header list. -/
theorem hasKey_normalizeRow_of_mem (hs : List String) :
    ∀ (r : Row) (k : String), k ∈ hs →
      hasKey (normalizeRow hs r) k = true := by
  induction hs with
  | nil => intro r k hk; simp at hk
  | cons h rest ih =>
    intro r k hk
    unfold normalizeRow
    rw [List.foldl_cons]
    rcases List.mem_cons.1 hk with rfl | hk'
    · exact hasKey_foldl_addMissing_mono rest _ _ (hasKey_addMissing_self r k)
    · exact ih _ _ hk'

theorem foldl_addMissing_extends (hs : List String) :
    ∀ (r e : Row), (∀ kv ∈ e, kv.2 = Value.str "" ∧ hasKey r kv.1 = false) →
      ∃ e', hs.foldl addMissing (r ++ e) = r ++ e' ∧
        ∀ kv ∈ e', kv.2 = Value.str "" ∧ hasKey r kv.1 = false := by
  induction hs with
  | nil => intro r e he; exact ⟨e, rfl, he⟩
  | cons h rest ih =>
    intro r e he
    rw [List.foldl_cons]
    by_cases hh : hasKey (r ++ e) h
    · rw [addMissing_of_hasKey hh]
      exact ih r e he
    · rw [addMissing_of_not_hasKey (by simpa using hh), List.append_assoc]
      apply ih
      intro kv hkv
      rcases List.mem_append.1 hkv with hkv' | hkv'
      · exact he kv hkv'
      · have hrh : hasKey r h = false := by
          have hh' : hasKey (r ++ e) h = false := by simpa using hh
          rw [hasKey_append] at hh'
          exact (Bool.or_eq_false_iff.1 hh').1
        simp only [List.mem_singleton] at hkv'
        subst hkv'
        exact ⟨rfl, hrh⟩

/-- Normalization only appends: the original key/value pairs stay as an
unchanged prefix, and everything appended is an empty-string cell for a
key the row did not have. -/
theorem normalizeRow_extends (hs : List String) (r : Row) :
    ∃ e, normalizeRow hs r = r ++ e ∧
      ∀ kv ∈ e, kv.2 = Value.str "" ∧ hasKey r kv.1 = false := by
  have h := foldl_addMissing_extends hs r [] (by simp)
  simpa [normalizeRow] using h

theorem mem_insertHeader (acc : List String) (k x : String) :
    x ∈ insertHeader acc k ↔ x ∈ acc ∨ x = k := by
  unfold insertHeader
  by_cases hc : k ∈ acc
  · rw [if_pos (by simpa using hc)]
    constructor
    · exact Or.inl
    · rintro (hx | rfl)
      · exact hx
      · exact hc
  · rw [if_neg (by simpa using hc)]
    simp

theorem mem_foldl_insertHeader (ks : List String) :
    ∀ (acc : List String) (x : String),
      x ∈ ks.foldl insertHeader acc ↔ x ∈ acc ∨ x ∈ ks := by
  induction ks with
  | nil => simp
  | cons k rest ih =>
    intro acc x
    rw [List.foldl_cons, ih, mem_insertHeader, List.mem_cons]
    tauto

theorem mem_keys_iff (r : Row) (x : String) :
    x ∈ r.map Prod.fst ↔ hasKey r x = true := by
  simp [hasKey, List.any_eq_true]

theorem mem_rowHeadersInto (acc : List String) (r : Row) (x : String) :
    x ∈ rowHeadersInto acc r ↔ x ∈ acc ∨ hasKey r x = true := by
  unfold rowHeadersInto
  rw [mem_foldl_insertHeader, mem_keys_iff]

theorem mem_foldl_rowHeadersInto (rows : List Row) :
    ∀ (acc : List String) (x : String),
      x ∈ rows.foldl rowHeadersInto acc ↔
        x ∈ acc ∨ ∃ r ∈ rows, hasKey r x = true := by
  induction rows with
  | nil => simp
  | cons r rest ih =>
    intro acc x
    rw [List.foldl_cons, ih, mem_rowHeadersInto]
    simp only [List.mem_cons, exists_eq_or_imp]
    rw [or_assoc]

theorem mem_foldl_pageHeadersInto (ps : List Page) :
    ∀ (acc : List String) (x : String),
      x ∈ ps.foldl pageHeadersInto acc ↔
        x ∈ acc ∨ ∃ p ∈ ps, ∃ r ∈ p.extractedData.getD [],
          hasKey r x = true := by
  induction ps with
  | nil => simp
  | cons p rest ih =>
    intro acc x
    rw [List.foldl_cons, ih]
    unfold pageHeadersInto
    rw [mem_foldl_rowHeadersInto]
    simp only [List.mem_cons, exists_eq_or_imp]
    rw [or_assoc]

/-- Membership in the collected header superset is exactly key occurrence
in some row of some listed page. -/
theorem mem_collectHeaders (ps : List Page) (x : String) :
    x ∈ collectHeaders ps ↔
      ∃ p ∈ ps, ∃ r ∈ p.extractedData.getD [], hasKey r x = true := by
  unfold collectHeaders
  rw [mem_foldl_pageHeadersInto]
  simp

theorem headerOccurs_iff_mem (pages : List Page) (k : String) :
    headerOccurs pages k = true ↔
      k ∈ collectHeaders (pages.filter isEligible) := by
  unfold headerOccurs
  rw [mem_collectHeaders]
  simp only [List.any_eq_true, List.mem_filter]

theorem reconcilePage_of_not_eligible (A : List String) (M : Nat) (p : Page)
    (hp : isEligible p = false) : reconcilePage A M p = p := by
  unfold reconcilePage
  cases hdata : p.extractedData with
  | none => rfl
  | some rows =>
    unfold isEligible at hp
    rw [hdata] at hp
    simp only [Option.isSome_some, Bool.and_true] at hp
    simp [hp]

theorem reconcilePage_eligible (A : List String) (M : Nat) (p : Page)
    (rows : List Row) (hdata : p.extractedData = some rows)
    (hst : p.status = Status.complete) :
    reconcilePage A M p =
      { p with
        extractedData := some (rows.map (normalizeRow A)),
        consistencyWarning :=
          if (rows.map (normalizeRow A)).length == M then none
          else some (warningMsg (rows.map (normalizeRow A)).length M) } := by
  unfold reconcilePage
  rw [hdata]
  simp [hst]

/-- C2: with at least two eligible pages, reconciliation keeps the page
count; non-eligible pages are returned unchanged; and each eligible page's
rows are rewritten preserving row count and order, where every rewritten
row is its original row (all keys and values unchanged, in place) extended
only by empty-string cells for keys it lacked, and afterwards contains
every column name occurring in any row of any eligible page. -/
theorem checkConsistency_schema_union (currentPages : List Page)
    (h : 2 ≤ (currentPages.filter isEligible).length) :
    (checkConsistency currentPages).length = currentPages.length ∧
    ∀ i, i < currentPages.length →
      ((isEligible (currentPages.getD i dummyPage) = false →
          (checkConsistency currentPages).getD i dummyPage =
            currentPages.getD i dummyPage) ∧
        ∀ rows, (currentPages.getD i dummyPage).extractedData = some rows →
          (currentPages.getD i dummyPage).status = Status.complete →
          ∃ rows',
            ((checkConsistency currentPages).getD i dummyPage).extractedData =
              some rows' ∧
            rows'.length = rows.length ∧
            ∀ n, n < rows.length →
              (∃ extra, rows'.getD n [] = rows.getD n [] ++ extra ∧
                ∀ kv ∈ extra, kv.2 = Value.str "" ∧
                  hasKey (rows.getD n []) kv.1 = false) ∧
              ∀ k, headerOccurs currentPages k = true →
                hasKey (rows'.getD n []) k = true) := by
  have hmap := checkConsistency_eq_map currentPages h
  constructor
  · rw [hmap]; exact List.length_map _ _
  · intro i hi
    rw [hmap, getD_map_eq currentPages _ i hi dummyPage dummyPage]
    constructor
    · intro hne
      exact reconcilePage_of_not_eligible _ _ _ hne
    · intro rows hdata hst
      rw [reconcilePage_eligible _ _ _ rows hdata hst]
      refine ⟨rows.map
          (normalizeRow (collectHeaders (currentPages.filter isEligible))),
        by simp, List.length_map _ _, ?_⟩
      intro n hn
      rw [getD_map_eq rows _ n hn [] []]
      constructor
      · exact normalizeRow_extends _ (rows.getD n [])
      · intro k hk
        apply hasKey_normalizeRow_of_mem
        exact (headerOccurs_iff_mem currentPages k).1 hk

/-- The schema-union scenario: page A extracts one row with name/age,
page B one row with name/city. -/
def pgA : Page :=
  { dummyPage with
    id := "a", name := "A", status := Status.complete,
    extractedData := some [[("name", Value.str "x"), ("age", Value.str "1")]] }

/-- Companion page to `pgA` in the schema-union scenario. -/
def pgB : Page :=
  { dummyPage with
    id := "b", name := "B", status := Status.complete,
    extractedData := some [[("name", Value.str "y"), ("city", Value.str "z")]] }

theorem checkConsistency_schema_union_witness :
    2 ≤ (([pgA, pgB] : List Page).filter isEligible).length ∧
    ((checkConsistency [pgA, pgB]).length = ([pgA, pgB] : List Page).length ∧
      ∀ i, i < ([pgA, pgB] : List Page).length →
        ((isEligible (([pgA, pgB] : List Page).getD i dummyPage) = false →
            (checkConsistency [pgA, pgB]).getD i dummyPage =
              ([pgA, pgB] : List Page).getD i dummyPage) ∧
          ∀ rows,
            (([pgA, pgB] : List Page).getD i dummyPage).extractedData =
              some rows →
            (([pgA, pgB] : List Page).getD i dummyPage).status =
              Status.complete →
            ∃ rows',
              ((checkConsistency [pgA, pgB]).getD i dummyPage).extractedData =
                some rows' ∧
              rows'.length = rows.length ∧
              ∀ n, n < rows.length →
                (∃ extra, rows'.getD n [] = rows.getD n [] ++ extra ∧
                  ∀ kv ∈ extra, kv.2 = Value.str "" ∧
                    hasKey (rows.getD n []) kv.1 = false) ∧
                ∀ k, headerOccurs [pgA, pgB] k = true →
                  hasKey (rows'.getD n []) k = true)) ∧
    ((checkConsistency [pgA, pgB]).getD 0 dummyPage).extractedData =
      some [[("name", Value.str "x"), ("age", Value.str "1"),
        ("city", Value.str "")]] ∧
    ((checkConsistency [pgA, pgB]).getD 1 dummyPage).extractedData =
      some [[("name", Value.str "y"), ("city", Value.str "z"),
        ("age", Value.str "")]] :=
  ⟨by decide, checkConsistency_schema_union [pgA, pgB] (by decide),
   by decide, by decide⟩

/-! ### C7: batch orchestration -/

/-- The effect one launched extraction (for snapshot page `t`) has on an
arbitrary current record `q`: nothing without a payload or on an id
mismatch, otherwise the started-and-resolved rewrite. -/
def pointFn (oc : String → Except String (List Row)) (t : Page) (q : Page) :
    Page :=
  if imageToProcess t == "" then q
  else if q.id == t.id then
    match oc t.id with
    | Except.ok data =>
      { q with status := Status.complete, consistencyWarning := none,
               extractedData := some data }
    | Except.error msg =>
      { q with status := Status.error, consistencyWarning := none,
               errorMessage := some msg }
  else q

theorem processPage_eq_map (pages : List Page) (t : Page)
    (oc : String → Except String (List Row)) :
    processPage pages t (oc t.id) = pages.map (pointFn oc t) := by
  unfold processPage pointFn
  by_cases hg : (imageToProcess t == "") = true
  · simp [hg]
  · rw [if_neg hg]
    cases hoc : oc t.id with
    | ok data =>
      dsimp only
      unfold resolveSuccess startExtract
      rw [List.map_map]
      apply List.map_congr_left
      intro q hq
      by_cases hid : q.id = t.id
      · simp [Function.comp, hid, hg, hoc]
      · simp [Function.comp, hid, hg, hoc]
    | error msg =>
      dsimp only
      unfold resolveFailure startExtract
      rw [List.map_map]
      apply List.map_congr_left
      intro q hq
      by_cases hid : q.id = t.id
      · simp [Function.comp, hid, hg, hoc]
      · simp [Function.comp, hid, hg, hoc]

theorem pointFn_id_preserved (oc : String → Except String (List Row))
    (t q : Page) : (pointFn oc t q).id = q.id := by
  unfold pointFn
  by_cases hg : (imageToProcess t == "") = true
  · simp [hg]
  · by_cases hid : (q.id == t.id) = true
    · cases oc t.id <;> simp [hg, hid]
    · simp [hg, hid]

theorem pointFn_of_ne (oc : String → Except String (List Row)) (t q : Page)
    (h : q.id ≠ t.id) : pointFn oc t q = q := by
  unfold pointFn
  by_cases hg : (imageToProcess t == "") = true
  · simp [hg]
  · simp [hg, h]

theorem pointFn_self (oc : String → Except String (List Row)) (p : Page) :
    pointFn oc p p = extractOne p (oc p.id) := by
  unfold pointFn extractOne
  by_cases hg : (imageToProcess p == "") = true
  · simp [hg]
  · cases oc p.id <;> simp [hg]

theorem pointFn_comm (oc : String → Except String (List Row)) (t t' : Page)
    (ht : t.id ≠ t'.id) (q : Page) :
    pointFn oc t' (pointFn oc t q) = pointFn oc t (pointFn oc t' q) := by
  by_cases h1 : q.id = t.id
  · have h2 : q.id ≠ t'.id := by rw [h1]; exact ht
    rw [pointFn_of_ne oc t' q h2,
      pointFn_of_ne oc t' (pointFn oc t q)
        (by rw [pointFn_id_preserved]; exact h2)]
  · by_cases h2 : q.id = t'.id
    · rw [pointFn_of_ne oc t q h1,
        pointFn_of_ne oc t (pointFn oc t' q)
          (by rw [pointFn_id_preserved]; exact h1)]
    · rw [pointFn_of_ne oc t q h1, pointFn_of_ne oc t' q h2,
        pointFn_of_ne oc t q h1]

theorem foldl_map_commute {α : Type} (F : α → Page → Page) (ts : List α) :
    ∀ acc : List Page,
      ts.foldl (fun a t => a.map (F t)) acc =
        acc.map (fun q => ts.foldl (fun q t => F t q) q) := by
  induction ts with
  | nil => intro acc; simp
  | cons t rest ih =>
    intro acc
    rw [List.foldl_cons, ih, List.map_map]
    rfl

theorem settleBatch_eq_map (pages : List Page)
    (oc : String → Except String (List Row)) :
    settleBatch pages oc =
      pages.map (fun q =>
        (pages.filter selectedForBatch).foldl (fun q t => pointFn oc t q) q) := by
  unfold settleBatch
  have hstep : (fun (acc : List Page) (p : Page) => processPage acc p (oc p.id)) =
      fun (acc : List Page) (p : Page) => acc.map (pointFn oc p) :=
    funext fun acc => funext fun p => processPage_eq_map acc p oc
  rw [hstep, foldl_map_commute]

theorem foldl_pointFn_of_fresh (oc : String → Except String (List Row))
    (ts : List Page) :
    ∀ q : Page, (∀ t ∈ ts, t.id ≠ q.id) →
      ts.foldl (fun q t => pointFn oc t q) q = q := by
  induction ts with
  | nil => intro q _; rfl
  | cons t rest ih =>
    intro q h
    rw [List.foldl_cons,
      pointFn_of_ne oc t q (fun he => h t (by simp) he.symm)]
    exact ih q fun t' ht' => h t' (by simp [ht'])

theorem id_inj_of_nodup (pages : List Page)
    (hnd : (pages.map Page.id).Nodup) {a b : Page} (ha : a ∈ pages)
    (hb : b ∈ pages) (hid : a.id = b.id) : a = b :=
  List.inj_on_of_nodup_map hnd ha hb hid

theorem extractOne_id_preserved (p : Page) (oc' : Except String (List Row)) :
    (extractOne p oc').id = p.id := by
  unfold extractOne
  by_cases hg : (imageToProcess p == "") = true
  · simp [hg]
  · cases oc' <;> simp [hg]

theorem foldl_pointFn_target (oc : String → Except String (List Row))
    (ts : List Page) (p : Page) (hmem : p ∈ ts)
    (hnd : (ts.map Page.id).Nodup) :
    ts.foldl (fun q t => pointFn oc t q) p = extractOne p (oc p.id) := by
  obtain ⟨s, t, rfl⟩ := List.append_of_mem hmem
  rw [List.map_append, List.map_cons] at hnd
  rw [List.nodup_append] at hnd
  obtain ⟨hnds, hndc, hdisj⟩ := hnd
  have hfreshs : ∀ x ∈ s, x.id ≠ p.id := by
    intro x hx he
    exact hdisj (he ▸ List.mem_map_of_mem Page.id hx) (List.mem_cons_self _ _)
  have hfresht : ∀ x ∈ t, x.id ≠ p.id := by
    intro x hx he
    have hp : p.id ∉ t.map Page.id := (List.nodup_cons.1 hndc).1
    exact hp (he ▸ List.mem_map_of_mem Page.id hx)
  rw [List.foldl_append, foldl_pointFn_of_fresh oc s p hfreshs,
    List.foldl_cons, pointFn_self]
  apply foldl_pointFn_of_fresh
  intro x hx
  rw [extractOne_id_preserved]
  exact hfresht x hx

/-- C7 counterexample: with every page already complete, `processAll`
returns early and does not run the reconciler at all, even though the
reconciler would rewrite these two heterogeneous pages. -/
theorem processAll_skips_reconciler_cex :
    processAll [pgA, pgB] (fun _ => Except.ok []) = [pgA, pgB] ∧
    checkConsistency [pgA, pgB] ≠ [pgA, pgB] :=
  ⟨by decide, by decide⟩

/-- C7 amended: when at least one page is `idle` or `error` at trigger
time (otherwise `processAll` is a no-op that skips the reconciler), and
page ids are unique, `processAll` commits `checkConsistency` of the fully
settled batch in one update, where settling launches extraction exactly
for the idle/error pages of the snapshot — pages in `complete` or
`extracting` are untouched by the batch phase, each selected page ends at
its own started-and-resolved record, and the settled result is independent
of the order in which the launched extractions resolve. -/
theorem processAll_spec (pages : List Page)
    (oc : String → Except String (List Row))
    (hne : pages.filter selectedForBatch ≠ [])
    (hnd : (pages.map Page.id).Nodup) :
    processAll pages oc = checkConsistency (settleBatch pages oc) ∧
    (settleBatch pages oc).length = pages.length ∧
    (∀ i, i < pages.length →
      (selectedForBatch (pages.getD i dummyPage) = false →
        (settleBatch pages oc).getD i dummyPage = pages.getD i dummyPage) ∧
      (selectedForBatch (pages.getD i dummyPage) = true →
        (settleBatch pages oc).getD i dummyPage =
          extractOne (pages.getD i dummyPage)
            (oc (pages.getD i dummyPage).id))) ∧
    (∀ order : List Page, order.Perm (pages.filter selectedForBatch) →
      order.foldl (fun acc p => processPage acc p (oc p.id)) pages =
        settleBatch pages oc) := by
  refine ⟨?_, ?_, ?_, ?_⟩
  · unfold processAll
    rw [if_neg (by simpa using hne)]
  · rw [settleBatch_eq_map]
    exact List.length_map _ _
  · intro i hi
    rw [settleBatch_eq_map, getD_map_eq pages _ i hi dummyPage dummyPage]
    have hpmem : pages.getD i dummyPage ∈ pages := by
      rw [List.getD_eq_getElem _ _ hi]
      exact List.getElem_mem hi
    constructor
    · intro hsel
      apply foldl_pointFn_of_fresh
      intro t ht hid
      have ht' := List.mem_filter.1 ht
      have heq : t = pages.getD i dummyPage :=
        id_inj_of_nodup pages hnd ht'.1 hpmem hid
      rw [heq] at ht'
      rw [hsel] at ht'
      exact Bool.false_ne_true ht'.2
    · intro hsel
      apply foldl_pointFn_target
      · exact List.mem_filter.2 ⟨hpmem, hsel⟩
      · exact ((List.filter_sublist pages).map Page.id).nodup hnd
  · intro order hperm
    have hstep : (fun (acc : List Page) (p : Page) =>
        processPage acc p (oc p.id)) =
        fun (acc : List Page) (p : Page) => acc.map (pointFn oc p) :=
      funext fun acc => funext fun p => processPage_eq_map acc p oc
    rw [hstep]
    unfold settleBatch
    rw [hstep]
    apply List.Perm.foldl_eq' hperm
    intro x hx y hy z
    by_cases hxy : x.id = y.id
    · have hxp : x ∈ pages :=
        (List.mem_filter.1 (hperm.subset hx)).1
      have hyp : y ∈ pages :=
        (List.mem_filter.1 (hperm.subset hy)).1
      rw [id_inj_of_nodup pages hnd hxp hyp hxy]
    · rw [List.map_map, List.map_map]
      exact List.map_congr_left fun q _ => pointFn_comm oc x y hxy q

/-- Concrete batch for the `processAll` witness: one idle page, one errored
page, one completed page. -/
def batchPages : List Page := [pgIdle, pgErr, pgDone]

/-- Concrete outcome function: the idle page succeeds, the errored page
fails again. -/
def batchOutcome : String → Except String (List Row) :=
  fun pid => if pid == "p1" then Except.ok [[("a", Value.str "2")]]
    else Except.error "bad scan"

theorem processAll_spec_witness :
    batchPages.filter selectedForBatch ≠ [] ∧
    (batchPages.map Page.id).Nodup ∧
    (processAll batchPages batchOutcome =
        checkConsistency (settleBatch batchPages batchOutcome) ∧
      (settleBatch batchPages batchOutcome).length = batchPages.length ∧
      (∀ i, i < batchPages.length →
        (selectedForBatch (batchPages.getD i dummyPage) = false →
          (settleBatch batchPages batchOutcome).getD i dummyPage =
            batchPages.getD i dummyPage) ∧
        (selectedForBatch (batchPages.getD i dummyPage) = true →
          (settleBatch batchPages batchOutcome).getD i dummyPage =
            extractOne (batchPages.getD i dummyPage)
              (batchOutcome (batchPages.getD i dummyPage).id))) ∧
      (∀ order : List Page, order.Perm (batchPages.filter selectedForBatch) →
        order.foldl (fun acc p => processPage acc p (batchOutcome p.id))
            batchPages =
          settleBatch batchPages batchOutcome)) :=
  ⟨by decide, by decide,
   processAll_spec batchPages batchOutcome (by decide) (by decide)⟩

/-! ### C10: the reconciler is idempotent -/

theorem eligible_decomp (p : Page) (h : isEligible p = true) :
    ∃ rows, p.extractedData = some rows ∧ p.status = Status.complete := by
  unfold isEligible at h
  rw [Bool.and_eq_true] at h
  obtain ⟨h1, h2⟩ := h
  cases hd : p.extractedData with
  | none => rw [hd] at h2; simp at h2
  | some rows => exact ⟨rows, rfl, by simpa using h1⟩

theorem isEligible_reconcilePage (A : List String) (M : Nat) (p : Page) :
    isEligible (reconcilePage A M p) = isEligible p := by
  unfold reconcilePage
  cases hdata : p.extractedData with
  | none => rfl
  | some rows =>
    dsimp only
    by_cases hst : (p.status == Status.complete) = true
    · rw [if_pos hst]
      unfold isEligible
      simp [hdata]
    · rw [if_neg hst]

theorem rowCountOf_reconcilePage (A : List String) (M : Nat) (p : Page) :
    rowCountOf (reconcilePage A M p) = rowCountOf p := by
  unfold reconcilePage
  cases hdata : p.extractedData with
  | none => rfl
  | some rows =>
    dsimp only
    by_cases hst : (p.status == Status.complete) = true
    · rw [if_pos hst]
      unfold rowCountOf
      simp [hdata]
    · rw [if_neg hst]

theorem hasKey_foldl_addMissing_cases (hs : List String) :
    ∀ (r : Row) (k : String), hasKey (hs.foldl addMissing r) k = true →
      hasKey r k = true ∨ k ∈ hs := by
  induction hs with
  | nil => intro r k h; exact Or.inl h
  | cons h0 rest ih =>
    intro r k h
    rw [List.foldl_cons] at h
    rcases ih _ _ h with hcase | hcase
    · by_cases hh : hasKey r h0 = true
      · rw [addMissing_of_hasKey hh] at hcase
        exact Or.inl hcase
      · rw [addMissing_of_not_hasKey (by simpa using hh), hasKey_append] at hcase
        rcases Bool.or_eq_true_iff.1 hcase with hc | hc
        · exact Or.inl hc
        · have : k = h0 := by
            have := List.any_eq_true.1 hc
            simp at this
            exact this.symm
          exact Or.inr (by simp [this])
    · exact Or.inr (by simp [hcase])

theorem hasKey_normalizeRow_cases (hs : List String) (r : Row) (k : String)
    (h : hasKey (normalizeRow hs r) k = true) :
    hasKey r k = true ∨ k ∈ hs :=
  hasKey_foldl_addMissing_cases hs r k h

theorem normalizeRow_id (hs : List String) :
    ∀ r : Row, (∀ k ∈ hs, hasKey r k = true) → normalizeRow hs r = r := by
  induction hs with
  | nil => intro r _; rfl
  | cons h0 rest ih =>
    intro r h
    unfold normalizeRow
    rw [List.foldl_cons, addMissing_of_hasKey (h h0 (by simp))]
    exact ih r fun k hk => h k (by simp [hk])

theorem page_eta (q : Page) (rows : List Row)
    (hdata : q.extractedData = some rows) (w : Option String)
    (hw : w = q.consistencyWarning) :
    { q with extractedData := some rows, consistencyWarning := w } = q := by
  cases q
  simp_all

/-- A second reconciliation pass maps every page to itself, provided every
eligible page's rows already carry all the headers and its warning already
matches the mode comparison. -/
theorem map_reconcile_id (res : List Page) (A2 : List String) (M2 : Nat)
    (hrows : ∀ q ∈ res, isEligible q = true →
      ∀ k ∈ A2, ∀ r ∈ q.extractedData.getD [], hasKey r k = true)
    (hw : ∀ q ∈ res, isEligible q = true →
      q.consistencyWarning =
        (if rowCountOf q == M2 then none
         else some (warningMsg (rowCountOf q) M2))) :
    res.map (reconcilePage A2 M2) = res := by
  apply map_id_of_mem
  intro q hq
  by_cases hqe : isEligible q = true
  · obtain ⟨rows, hdata, hst⟩ := eligible_decomp q hqe
    rw [reconcilePage_eligible A2 M2 q rows hdata hst]
    have hnorm : rows.map (normalizeRow A2) = rows :=
      map_id_of_mem fun r hr =>
        normalizeRow_id A2 r fun k hk =>
          hrows q hq hqe k hk r (by rw [hdata]; exact hr)
    rw [hnorm]
    have hrcq : rowCountOf q = rows.length := by
      unfold rowCountOf
      simp [hdata]
    have hwq := hw q hq hqe
    rw [hrcq] at hwq
    exact page_eta q rows hdata _ hwq.symm
  · exact reconcilePage_of_not_eligible _ _ _ (by simpa using hqe)

/-- C10: `checkConsistency` is idempotent — the second pass finds every
eligible row already rectangular over the header superset, the same row
counts, hence the same mode and the same warnings, and changes nothing. -/
theorem checkConsistency_idempotent (pages : List Page) :
    checkConsistency (checkConsistency pages) = checkConsistency pages := by
  by_cases hlen : (pages.filter isEligible).length < 2
  · rw [checkConsistency_few pages hlen, checkConsistency_few pages hlen]
  · have h2 : 2 ≤ (pages.filter isEligible).length := by omega
    have hmap := checkConsistency_eq_map pages h2
    have hfilter : ∀ (A : List String) (M : Nat),
        (pages.map (reconcilePage A M)).filter isEligible =
        (pages.filter isEligible).map (reconcilePage A M) := by
      intro A M
      rw [List.filter_map]
      congr 1
      exact List.filter_congr fun p _ => isEligible_reconcilePage A M p
    have hlen2 : 2 ≤ ((pages.map
        (reconcilePage (collectHeaders (pages.filter isEligible))
          (modeOf (eligibleRowCounts pages)))).filter isEligible).length := by
      rw [hfilter, List.length_map]
      exact h2
    have hrc : ∀ (A : List String) (M : Nat),
        eligibleRowCounts (pages.map (reconcilePage A M)) =
          eligibleRowCounts pages := by
      intro A M
      unfold eligibleRowCounts
      rw [hfilter, List.map_map]
      exact List.map_congr_left fun p _ => rowCountOf_reconcilePage A M p
    have hsub : ∀ (M : Nat) (k : String), k ∈ collectHeaders ((pages.map
        (reconcilePage (collectHeaders (pages.filter isEligible))
          M)).filter isEligible) →
        k ∈ collectHeaders (pages.filter isEligible) := by
      intro M k hk
      rw [hfilter, mem_collectHeaders] at hk
      obtain ⟨q, hq, r2, hr2, hkey⟩ := hk
      obtain ⟨p, hp, rfl⟩ := List.mem_map.1 hq
      obtain ⟨rows, hdata, hst⟩ :=
        eligible_decomp p (List.mem_filter.1 hp).2
      rw [reconcilePage_eligible _ _ p rows hdata hst] at hr2
      simp only [Option.getD_some] at hr2
      obtain ⟨r, hr, rfl⟩ := List.mem_map.1 hr2
      rcases hasKey_normalizeRow_cases _ r k hkey with hcase | hcase
      · rw [mem_collectHeaders]
        exact ⟨p, hp, r, by rw [hdata]; exact hr, hcase⟩
      · exact hcase
    rw [hmap, checkConsistency_eq_map _ hlen2, hrc]
    apply map_reconcile_id
    · intro q hq hqe k hk r hr
      obtain ⟨p, hp, rfl⟩ := List.mem_map.1 hq
      by_cases hpe : isEligible p = true
      · obtain ⟨rows, hdata, hst⟩ := eligible_decomp p hpe
        rw [reconcilePage_eligible _ _ p rows hdata hst] at hr
        simp only [Option.getD_some] at hr
        obtain ⟨r0, hr0, rfl⟩ := List.mem_map.1 hr
        exact hasKey_normalizeRow_of_mem _ _ _ (hsub _ k hk)
      · rw [reconcilePage_of_not_eligible _ _ p
          (by simpa using hpe)] at hqe
        rw [hqe] at hpe
        exact absurd rfl hpe
    · intro q hq hqe
      obtain ⟨p, hp, rfl⟩ := List.mem_map.1 hq
      by_cases hpe : isEligible p = true
      · obtain ⟨rows, hdata, hst⟩ := eligible_decomp p hpe
        rw [reconcilePage_eligible _ _ p rows hdata hst]
        simp [rowCountOf]
      · rw [reconcilePage_of_not_eligible _ _ p
          (by simpa using hpe)] at hqe
        rw [hqe] at hpe
        exact absurd rfl hpe

end Digitizer
